import Mathlib

/-!
Verification of the MCTS decision engine of this repository
(`src/mcts_vanilla.py` and `src/mcts_modified.py`).

The two Python modules are shallowly embedded below.  Conventions of the
embedding:

* Python ints are `Nat` (the counters `wins`/`visits` are only ever
  incremented, so they stay non-negative); float arithmetic on UCB scores
  is modelled over `ℝ` (and over `EReal` where the source produces
  `float('inf')`), while the pure win-rate `wins/visits` used by the
  modified variant's `get_best_action` is modelled over `ℚ`.
* The node class `MCTSNode` lives in `mcts_node.py`, which is not among
  the source files; it is modelled from the spec's data model (§3)
  and from the way both modules use it: fields `untried_actions`,
  `child_nodes` (an insertion-ordered mapping, like a Python dict),
  `wins` and `visits`, initialised to the constructor's action list, the
  empty mapping, 0 and 0.
* Python's mutable parent pointers are replaced by the standard pure
  encoding: a node is identified by the path of actions leading to it
  from the root, and `backpropagate`, which in Python walks `parent`
  pointers upward, becomes a pure update along that path from the root
  down.  Root nodes have `parent = None` and `parent_action = None`;
  every other node's `parent_action` is the key under which it is stored
  in its parent's `child_nodes`, so the path representation carries
  exactly the same information.
* `random.choice(lst)` is modelled as `lst[r % len lst]` for an injected
  random value `r`; callers thread an explicit stream `ℕ → ℕ` of random
  values, matching the spec's requirement that randomness be injectable.
* Python `while` loops and unbounded recursions are given explicit fuel;
  the theorems show that the fuel bound demanded by the spec suffices,
  or hold for every fuel value.
-/

namespace MCTS

/-- Actions of the underlying game are the 4-tuples `(R, C, r, c)` that
`p2_t3.Board` produces; the modified rollout inspects `action[2]` and
`action[3]`. -/
abbrev Act := ℕ × ℕ × ℕ × ℕ

/-- The search node of `mcts_node.py`, modelled from the spec (§3 Data
Model) and from its use in both modules: `untried_actions` starts as the
legal-action list handed to the constructor, `child_nodes` is an
insertion-ordered mapping from actions to child nodes, and the counters
start at zero.  Parent links are represented by paths (see module
comment). -/
inductive MCTSNode : Type where
  | mk (untried_actions : List Act) (child_nodes : List (Act × MCTSNode))
       (wins : ℕ) (visits : ℕ)

namespace MCTSNode

def untried_actions : MCTSNode → List Act
  | .mk u _ _ _ => u

def child_nodes : MCTSNode → List (Act × MCTSNode)
  | .mk _ c _ _ => c

def wins : MCTSNode → ℕ
  | .mk _ _ w _ => w

def visits : MCTSNode → ℕ
  | .mk _ _ _ v => v

/-- Replace the children mapping. -/
def withChildren (cs : List (Act × MCTSNode)) : MCTSNode → MCTSNode
  | .mk u _ w v => .mk u cs w v

/-- Replace the untried-action list. -/
def withUntried (u : List Act) : MCTSNode → MCTSNode
  | .mk _ c w v => .mk u c w v

/-- `node.visits += 1` (and nothing else). -/
def bumpVisits : MCTSNode → MCTSNode
  | .mk u c w v => .mk u c w (v + 1)

/-- `node.visits += 1; if won: node.wins += 1`. -/
def record (won : Bool) : MCTSNode → MCTSNode
  | .mk u c w v => .mk u c (w + if won then 1 else 0) (v + 1)

end MCTSNode

/-- The fresh node `MCTSNode(parent, parent_action, action_list)` built by
both expansion routines and by `think` for the root: `untried_actions`
is the action list, no children, zero statistics. -/
def freshNode (action_list : List Act) : MCTSNode :=
  .mk action_list [] 0 0

/-- `node.child_nodes[action] = new_node` on a Python dict: an existing
key is overwritten in place, a new key is appended (insertion order). -/
def dictInsert (a : Act) (c : MCTSNode) : List (Act × MCTSNode) → List (Act × MCTSNode)
  | [] => [(a, c)]
  | (a1, c1) :: rest =>
      if a1 = a then (a1, c) :: rest else (a1, c1) :: dictInsert a c rest

/-- Update the child stored under key `a` (a no-op when the key is
absent). -/
def modifyChild (a : Act) (f : MCTSNode → MCTSNode) :
    List (Act × MCTSNode) → List (Act × MCTSNode)
  | [] => []
  | (a1, c1) :: rest =>
      if a1 = a then (a1, f c1) :: rest else (a1, c1) :: modifyChild a f rest

/-- Apply `f` to the node reached from `t` by following the path of
actions `p` through the children mappings. -/
def updateAt (f : MCTSNode → MCTSNode) : List Act → MCTSNode → MCTSNode
  | [], n => f n
  | a :: p, n => n.withChildren (modifyChild a (updateAt f p) n.child_nodes)

/-- `random.choice(lst)` with injected random value `r` : `lst[r % len]`.
(The Python call raises on an empty list; the development only invokes
it under the non-emptiness guarantee the code relies on.) -/
def choice (r : ℕ) (l : List Act) : Act :=
  l.getD (r % l.length) (0, 0, 0, 0)

/-- Advance an injected random stream past its first value. -/
def shiftRng (rng : ℕ → ℕ) : ℕ → ℕ := fun n => rng (n + 1)

/-- The game-rule engine interface (`p2_t3.Board`) consumed by both
modules — exactly the five operations the spec's §6 lists.
`points_values` returns `none` on non-terminal states (Python `None`). -/
structure Board (State : Type) where
  is_ended : State → Bool
  current_player : State → ℕ
  legal_actions : State → List Act
  next_state : State → Act → State
  points_values : State → Option (ℕ → ℤ)

/-- `is_win` (identical in both modules): `points_values(state)[identity]
== 1`.  The Python `assert outcome is not None` fires on non-terminal
states; the embedding returns `false` there and the theorems only apply
`is_win` to terminal states, as the code's contract demands. -/
def is_win {State : Type} (board : Board State) (state : State) (identity_of_bot : ℕ) : Bool :=
  match board.points_values state with
  | some outcome => outcome identity_of_bot == 1
  | none => false

/-- The predicate `wins ≤ visits` on a single node (the spec's §8 first
testable property; `0 ≤ wins` holds by the `Nat` embedding of a counter
that is only ever incremented). -/
def wlv (n : MCTSNode) : Bool := n.wins ≤ n.visits

mutual

/-- `p` holds of every node of the tree. -/
def allNodesB (p : MCTSNode → Bool) : MCTSNode → Bool
  | .mk u cs w v => p (.mk u cs w v) && allChildrenB p cs

/-- `p` holds of every node of every tree in a children mapping. -/
def allChildrenB (p : MCTSNode → Bool) : List (Act × MCTSNode) → Bool
  | [] => true
  | c :: rest => allNodesB p c.2 && allChildrenB p rest

end

namespace Vanilla

/-- `num_nodes` of `mcts_vanilla.py`. -/
def num_nodes : ℕ := 100

/-- `explore_faction` of `mcts_vanilla.py`. -/
def explore_faction : ℝ := 2

/-- `ucb` of `mcts_vanilla.py`.  `node.wins`, `node.visits` and
`node.parent.visits` are passed explicitly (the parent pointer is not
part of the pure node).  Note the source has no `+infinity` branch for
zero-visit nodes and never flips the perspective: when
`parent.visits != 0` it always scores
`wins/visits + explore_faction * sqrt(log(parent.visits)/visits)`, and
otherwise returns `0`.  (In Python `wins/visits` raises on
`visits == 0`; the theorems only evaluate this formula at nodes with
`visits ≥ 1`, which is an invariant of every child the vanilla driver
creates.) -/
noncomputable def ucb (wins visits parent_visits : ℕ) : ℝ :=
  if parent_visits ≠ 0 then
    (wins : ℝ) / (visits : ℝ) +
      explore_faction * Real.sqrt (Real.log (parent_visits : ℝ) / (visits : ℝ))
  else 0

/-- `get_best_action` of `mcts_vanilla.py`: scan the children in
iteration order keeping `(best_child, highest_winrate)`, starting from
`(None, 0)`, replacing the incumbent whenever `ucb(child) >=
highest_winrate`.  The action under which the winning child is stored
(its `parent_action`) is returned alongside it. -/
noncomputable def get_best_action (root_node : MCTSNode) : Option (Act × MCTSNode) :=
  (root_node.child_nodes.foldl
    (fun acc c =>
      if acc.2 ≤ ucb c.2.wins c.2.visits root_node.visits then
        (some c, ucb c.2.wins c.2.visits root_node.visits)
      else acc)
    ((none : Option (Act × MCTSNode)), (0 : ℝ))).1

/-- `traverse_nodes` of `mcts_vanilla.py`, with fuel for the recursion:
if the node has no children return it (base case); otherwise descend
into `get_best_action node`, advancing the state by that child's
`parent_action`.  The returned triple is the path descended, the node
reached and its state.  (The source computes a variable `identity` from
`current_player` and `bot_identity` here but never uses it; the `none`
branch of the match is unreachable because `get_best_action` returns a
child whenever the children mapping is non-empty.) -/
noncomputable def traverse_nodes {State : Type} (board : Board State) (bot_identity : ℕ) :
    ℕ → MCTSNode → State → List Act × MCTSNode × State
  | 0, node, state => ([], node, state)
  | fuel + 1, node, state =>
    if node.child_nodes.isEmpty then ([], node, state)
    else
      match get_best_action node with
      | some (a, best_node) =>
          let r := traverse_nodes board bot_identity fuel best_node (board.next_state state a)
          (a :: r.1, r.2)
      | none => ([], node, state)

/-- `expand_leaf` of `mcts_vanilla.py`: pick an untried action at random,
compute its state and legal actions, insert the fresh child under that
action and remove the action from `untried_actions`.  Returns the
updated parent together with the chosen action and the child's state. -/
def expand_leaf {State : Type} (r : ℕ) (board : Board State) (node : MCTSNode)
    (state : State) : MCTSNode × Act × State :=
  let action := choice r node.untried_actions
  let new_state := board.next_state state action
  let new_node := freshNode (board.legal_actions new_state)
  ((node.withChildren (dictInsert action new_node node.child_nodes)).withUntried
      (node.untried_actions.erase action),
   action, new_state)

/-- `rollout` of `mcts_vanilla.py`: while the state is not terminal,
play a uniformly random legal action.  The `while` loop carries fuel;
the termination theorem shows any fuel at least the game's ply bound
suffices. -/
def rollout {State : Type} (board : Board State) (rng : ℕ → ℕ) : ℕ → State → State
  | 0, state => state
  | fuel + 1, state =>
      if board.is_ended state then state
      else
        rollout board (shiftRng rng) fuel
          (board.next_state state (choice (rng 0) (board.legal_actions state)))

/-- `backpropagate` of `mcts_vanilla.py`, as the induced pure update of
the tree along the root-to-leaf path of the node the Python call starts
from.  The Python loop walks `parent` pointers upward, incrementing
`visits` (and `wins` on a win) at every node whose `parent` is not
`None`, i.e. at every node on the path strictly below the root; the
initial `if current_node.parent == None` bumps `visits` only when the
function is called on the root itself (empty path), and even then never
touches `wins`. -/
def backpropagate (won : Bool) : List Act → MCTSNode → MCTSNode
  | [], n => n.bumpVisits
  | a :: p, n => n.withChildren (modifyChild a (bump won p) n.child_nodes)
where
  /-- The `while` loop of `backpropagate`: every node it reaches (all of
  them strictly below the root) gets `visits += 1` and, on a win,
  `wins += 1`. -/
  bump (won : Bool) : List Act → MCTSNode → MCTSNode
  | [], n => n.record won
  | a :: p, n => (n.withChildren (modifyChild a (bump won p) n.child_nodes)).record won

/-- One pass of the driver loop in `think` of `mcts_vanilla.py`:
selection, conditional expansion (`if node.untried_actions:`),
simulation, backpropagation.  `rng 0` feeds the expansion's
`random.choice`; the shifted stream feeds the rollout. -/
noncomputable def iteration {State : Type} (board : Board State) (rng : ℕ → ℕ)
    (tf rf : ℕ) (current_state : State) (bot_identity : ℕ) (root : MCTSNode) : MCTSNode :=
  let t := traverse_nodes board bot_identity tf root current_state
  let e :=
    if t.2.1.untried_actions.isEmpty then (t.1, root, t.2.2)
    else
      let ex := expand_leaf (rng 0) board t.2.1 t.2.2
      (t.1 ++ [ex.2.1], updateAt (fun _ => ex.1) t.1 root, ex.2.2)
  let possible_end_state := rollout board (shiftRng rng) rf e.2.2
  backpropagate (is_win board possible_end_state bot_identity) e.1 e.2.1

/-- The `for _ in range(num_nodes)` loop of `think`, iterated on the
root; `rngs i` is the random stream of the `i`-th remaining
iteration. -/
noncomputable def searchTree {State : Type} (board : Board State) (rngs : ℕ → ℕ → ℕ)
    (tf rf : ℕ) (current_state : State) (bot_identity : ℕ) :
    ℕ → MCTSNode → MCTSNode
  | 0, root => root
  | n + 1, root =>
      searchTree board rngs tf rf current_state bot_identity n
        (iteration board (rngs n) tf rf current_state bot_identity root)

/-- `think` of `mcts_vanilla.py`: build a fresh root from the current
state, run the iterations, then `get_best_action(root_node).parent_action`.
A `none` result models the `AttributeError` Python raises when
`get_best_action` returns `None` and `.parent_action` is read on it. -/
noncomputable def think {State : Type} (board : Board State) (rngs : ℕ → ℕ → ℕ)
    (tf rf iters : ℕ) (current_state : State) : Option Act :=
  let bot_identity := board.current_player current_state
  let root_node := freshNode (board.legal_actions current_state)
  (get_best_action
      (searchTree board rngs tf rf current_state bot_identity iters root_node)).map
    Prod.fst

end Vanilla

namespace Modified

/-- `num_nodes` of `mcts_modified.py`. -/
def num_nodes : ℕ := 500

/-- `explore_faction` of `mcts_modified.py`. -/
def explore_faction : ℝ := 2

/-- `ucb` of `mcts_modified.py`: `float('inf')` (here `⊤ : EReal`) for a
zero-visit node, otherwise `1 - wins/visits + explore_faction *
sqrt(log(parent.visits)/visits)` when `is_opponent` and
`wins/visits + ...` when not. -/
noncomputable def ucb (wins visits parent_visits : ℕ) (is_opponent : Bool) : EReal :=
  if visits = 0 then ⊤
  else if is_opponent then
    (((1 : ℝ) - (wins : ℝ) / (visits : ℝ) +
        explore_faction * Real.sqrt (Real.log (parent_visits : ℝ) / (visits : ℝ)) : ℝ) : EReal)
  else
    (((wins : ℝ) / (visits : ℝ) +
        explore_faction * Real.sqrt (Real.log (parent_visits : ℝ) / (visits : ℝ)) : ℝ) : EReal)

/-- The child-selection loop inside `traverse_nodes` of
`mcts_modified.py`: scan the children keeping `(best_node,
highest_winrate)`, starting from the node itself and `0`, replacing the
incumbent whenever `ucb(child, identity) >= highest_winrate`.  `none`
stands for "the incumbent is still the node itself". -/
noncomputable def bestChild (node : MCTSNode) (identity : Bool) : Option (Act × MCTSNode) :=
  (node.child_nodes.foldl
    (fun acc c =>
      if acc.2 ≤ ucb c.2.wins c.2.visits node.visits identity then
        (some c, ucb c.2.wins c.2.visits node.visits identity)
      else acc)
    ((none : Option (Act × MCTSNode)), (0 : EReal))).1

/-- `expand_leaf` of `mcts_modified.py`: create a child for **every**
untried action, inserting each into `child_nodes`; `untried_actions` is
left untouched.  Returns the updated parent together with the last
action expanded and that action's state (the loop variables the `return
new_node, new_state` reads after the loop).  `none` models the
`UnboundLocalError` this return raises when `untried_actions` is
empty. -/
def expand_leaf {State : Type} (board : Board State) (node : MCTSNode) (state : State) :
    Option (MCTSNode × Act × State) :=
  match node.untried_actions with
  | [] => none
  | a0 :: rest =>
      some ((a0 :: rest).foldl
        (fun (acc : MCTSNode × Act × State) (action : Act) =>
          let new_state := board.next_state state action
          let new_node := freshNode (board.legal_actions new_state)
          (acc.1.withChildren (dictInsert action new_node acc.1.child_nodes),
           action, new_state))
        (node, a0, state))

/-- `traverse_nodes` of `mcts_modified.py`, with fuel for the recursion.
Base cases: terminal state; childless unvisited node; childless visited
node (expand it, the selection phase here performs the expansion).
Otherwise descend into the best child by `ucb(child, identity)` where
`identity = (current_player(state) == bot_identity)`, and recurse
passing that **boolean** as the next `bot_identity` — faithfully
modelled by `if identity then 1 else 0`, since Python compares
`current_player(state) == True/False` numerically as `== 1` / `== 0`.
The returned triple is the updated subtree, the path to the node
selection stopped at, and that node's state. -/
noncomputable def traverse_nodes {State : Type} (board : Board State) :
    ℕ → MCTSNode → State → ℕ → MCTSNode × List Act × State
  | 0, node, state, _ => (node, [], state)
  | fuel + 1, node, state, bot_identity =>
    if board.is_ended state then (node, [], state)
    else if node.child_nodes.isEmpty then
      if node.visits = 0 then (node, [], state)
      else
        match expand_leaf board node state with
        | some ex => (ex.1, [ex.2.1], ex.2.2)
        | none => (node, [], state)
    else
      let identity : Bool := board.current_player state == bot_identity
      match bestChild node identity with
      | some (a, best_node) =>
          let r := traverse_nodes board fuel best_node (board.next_state state a)
            (if identity then 1 else 0)
          (node.withChildren (modifyChild a (fun _ => r.1) node.child_nodes),
           a :: r.2.1, r.2.2)
      | none => (node, [], state)

/-- `rollout` of `mcts_modified.py`: at each ply scan the legal actions
keeping the **last** one whose third and fourth components are both `1`
(the biased pick); if none matched (`if not action_to_use:` — a 4-tuple
of ints is never falsy, so this is exactly the no-match case) fall back
to a uniformly random legal action, consuming one random value. -/
def rollout {State : Type} (board : Board State) (rng : ℕ → ℕ) : ℕ → State → State
  | 0, state => state
  | fuel + 1, state =>
      if board.is_ended state then state
      else
        match ((board.legal_actions state).filter
            fun a => a.2.2.1 == 1 && a.2.2.2 == 1).getLast? with
        | some a => rollout board rng fuel (board.next_state state a)
        | none =>
            rollout board (shiftRng rng) fuel
              (board.next_state state (choice (rng 0) (board.legal_actions state)))

/-- `backpropagate` of `mcts_modified.py` as the induced pure update
along the root-to-leaf path: the Python recursion increments `visits`
(and `wins` on a win) at the node it is called on, stops if that node's
`parent_action` is `None` (true exactly of the root in the tree `think`
grows), and otherwise recurses into the parent — so every node on the
path, the root included, is incremented once. -/
def backpropagate (won : Bool) : List Act → MCTSNode → MCTSNode
  | [], n => n.record won
  | a :: p, n =>
      (n.withChildren (modifyChild a (backpropagate won p) n.child_nodes)).record won

/-- `winrate`: the `child.wins/child.visits` computed by
`get_best_action` of `mcts_modified.py` (exact rational arithmetic; the
Python float division raises on `visits == 0`, so the theorems carry
that side condition where it matters). -/
def winrate (n : MCTSNode) : ℚ := (n.wins : ℚ) / (n.visits : ℚ)

/-- `get_best_action` of `mcts_modified.py`: scan the children in
iteration order keeping `(best_child, highest_winrate)`, starting from
`(None, 0)`, replacing the incumbent whenever `child_winrate >=
highest_winrate`. -/
def get_best_action (root_node : MCTSNode) : Option (Act × MCTSNode) :=
  (root_node.child_nodes.foldl
    (fun acc c =>
      if acc.2 ≤ winrate c.2 then (some c, winrate c.2) else acc)
    ((none : Option (Act × MCTSNode)), (0 : ℚ))).1

/-- One pass of the driver loop in `think` of `mcts_modified.py`:
selection (which performs any expansion), simulation,
backpropagation. -/
noncomputable def iteration {State : Type} (board : Board State) (rng : ℕ → ℕ)
    (tf rf : ℕ) (current_state : State) (bot_identity : ℕ) (root : MCTSNode) : MCTSNode :=
  let t := traverse_nodes board tf root current_state bot_identity
  let possible_end_state := rollout board rng rf t.2.2
  backpropagate (is_win board possible_end_state bot_identity) t.2.1 t.1

/-- The `for _ in range(num_nodes)` loop of `think` of
`mcts_modified.py`. -/
noncomputable def searchTree {State : Type} (board : Board State) (rngs : ℕ → ℕ → ℕ)
    (tf rf : ℕ) (current_state : State) (bot_identity : ℕ) :
    ℕ → MCTSNode → MCTSNode
  | 0, root => root
  | n + 1, root =>
      searchTree board rngs tf rf current_state bot_identity n
        (iteration board (rngs n) tf rf current_state bot_identity root)

/-- `think` of `mcts_modified.py`; as in the vanilla variant, `none`
models the `AttributeError` raised by reading `.parent_action` on the
`None` that `get_best_action` returns for a childless root. -/
noncomputable def think {State : Type} (board : Board State) (rngs : ℕ → ℕ → ℕ)
    (tf rf iters : ℕ) (current_state : State) : Option Act :=
  let bot_identity := board.current_player current_state
  let root_node := freshNode (board.legal_actions current_state)
  (get_best_action
      (searchTree board rngs tf rf current_state bot_identity iters root_node)).map
    Prod.fst

end Modified

/-- Trees reachable by the operations the two drivers perform, starting
from a fresh root: vanilla/modified backpropagation along any path,
vanilla single expansion or modified bulk expansion at any node of the
tree, and whole driver iterations of either variant.  (The expansion
constructors over-approximate: they allow any path and any state, which
only enlarges the set of trees the invariants below must cover.) -/
inductive Reachable {State : Type} (board : Board State) : MCTSNode → Prop where
  | root (s : State) : Reachable board (freshNode (board.legal_actions s))
  | backV {t : MCTSNode} (won : Bool) (path : List Act) :
      Reachable board t → Reachable board (Vanilla.backpropagate won path t)
  | backM {t : MCTSNode} (won : Bool) (path : List Act) :
      Reachable board t → Reachable board (Modified.backpropagate won path t)
  | expV {t : MCTSNode} (r : ℕ) (path : List Act) (s : State) :
      Reachable board t →
      Reachable board (updateAt (fun n => (Vanilla.expand_leaf r board n s).1) path t)
  | expM {t : MCTSNode} (path : List Act) (s : State) :
      Reachable board t →
      Reachable board (updateAt (fun n =>
        match Modified.expand_leaf board n s with
        | some ex => ex.1
        | none => n) path t)
  | iterV {t : MCTSNode} (rng : ℕ → ℕ) (tf rf : ℕ) (s : State) (bot : ℕ) :
      Reachable board t →
      Reachable board (Vanilla.iteration board rng tf rf s bot t)
  | iterM {t : MCTSNode} (rng : ℕ → ℕ) (tf rf : ℕ) (s : State) (bot : ℕ) :
      Reachable board t →
      Reachable board (Modified.iteration board rng tf rf s bot t)

section ConcreteFixtures

/-- A plain action (its third and fourth components are not `1`, so the
modified rollout's heuristic ignores it). -/
def aA : Act := (0, 0, 0, 0)

/-- A second plain action, distinct from `aA`. -/
def aB : Act := (1, 1, 0, 0)

/-- The action the modified rollout's heuristic prefers
(`action[2] == 1 and action[3] == 1`). -/
def aBias : Act := (0, 0, 1, 1)

/-- A one-move game over `ℕ` used for the concrete evaluations: state
`0` is terminal, every other state offers `aA` and `aB`, and either
move ends the game.  Player 1 moves everywhere. -/
def oneMoveBoard : Board ℕ :=
  ⟨fun s => s == 0, fun _ => 1, fun s => if s == 0 then [] else [aA, aB],
   fun _ _ => 0, fun s => if s == 0 then some (fun _ => 1) else none⟩

/-- A countdown game over `ℕ` with no heuristic-biased action: state `n`
counts down to the terminal state `0`; `n` itself bounds the ply
count. -/
def downBoard : Board ℕ :=
  ⟨fun s => s == 0, fun _ => 1, fun s => if s == 0 then [] else [aA],
   fun s _ => s - 1, fun s => if s == 0 then some (fun _ => 1) else none⟩

/-- A child with win-rate `1` after one visit. -/
def nodeWon : MCTSNode := .mk [] [] 1 1

/-- A child with win-rate `0` after one visit. -/
def nodeLost : MCTSNode := .mk [] [] 0 1

/-- Root for the C1 evaluation: one visit recorded (so the exploration
term vanishes, `log 1 = 0`), children `aA ↦ nodeWon`, `aB ↦ nodeLost`,
fully expanded. -/
def c1root : MCTSNode := .mk [] [(aA, nodeWon), (aB, nodeLost)] 1 1

/-- Root for the C2 evaluation: zero visits (the state the vanilla
driver actually leaves its root in), children `aA ↦ nodeWon`,
`aB ↦ nodeLost`. -/
def c2root : MCTSNode := .mk [] [(aA, nodeWon), (aB, nodeLost)] 0 0

/-- Two children with the equal win-rate `1/2` realised by different
statistics, for the tie-break evaluation. -/
def nodeHalfA : MCTSNode := .mk [] [] 1 2

/-- See `nodeHalfA`. -/
def nodeHalfB : MCTSNode := .mk [] [] 2 4

/-- Root whose two children tie at win-rate `1/2`. -/
def c5root : MCTSNode := .mk [] [(aA, nodeHalfA), (aB, nodeHalfB)] 2 6

/-- Root with a single fresh (never-visited) child, the shape of the
vanilla tree right after its first expansion and before its first
backpropagation. -/
def c6root : MCTSNode := .mk [aB] [(aA, freshNode [aA, aB])] 0 0

/-- A childless, once-visited node with two untried actions: the shape
the modified selection phase bulk-expands. -/
def c7node : MCTSNode := .mk [aA, aB] [] 0 1

end ConcreteFixtures

end MCTS

namespace MCTS.MCTSNode

@[simp] theorem untried_mk (u c w v) : (MCTSNode.mk u c w v).untried_actions = u := rfl

@[simp] theorem child_mk (u c w v) : (MCTSNode.mk u c w v).child_nodes = c := rfl

@[simp] theorem wins_mk (u c w v) : (MCTSNode.mk u c w v).wins = w := rfl

@[simp] theorem visits_mk (u c w v) : (MCTSNode.mk u c w v).visits = v := rfl

@[simp] theorem withChildren_child (cs : List (Act × MCTSNode)) (n : MCTSNode) :
    (n.withChildren cs).child_nodes = cs := by cases n; rfl

@[simp] theorem withChildren_visits (cs : List (Act × MCTSNode)) (n : MCTSNode) :
    (n.withChildren cs).visits = n.visits := by cases n; rfl

@[simp] theorem withChildren_wins (cs : List (Act × MCTSNode)) (n : MCTSNode) :
    (n.withChildren cs).wins = n.wins := by cases n; rfl

@[simp] theorem withChildren_untried (cs : List (Act × MCTSNode)) (n : MCTSNode) :
    (n.withChildren cs).untried_actions = n.untried_actions := by cases n; rfl

@[simp] theorem withUntried_child (u : List Act) (n : MCTSNode) :
    (n.withUntried u).child_nodes = n.child_nodes := by cases n; rfl

@[simp] theorem withUntried_visits (u : List Act) (n : MCTSNode) :
    (n.withUntried u).visits = n.visits := by cases n; rfl

@[simp] theorem withUntried_wins (u : List Act) (n : MCTSNode) :
    (n.withUntried u).wins = n.wins := by cases n; rfl

@[simp] theorem withUntried_untried (u : List Act) (n : MCTSNode) :
    (n.withUntried u).untried_actions = u := by cases n; rfl

@[simp] theorem bumpVisits_visits (n : MCTSNode) : n.bumpVisits.visits = n.visits + 1 := by
  cases n; rfl

@[simp] theorem bumpVisits_wins (n : MCTSNode) : n.bumpVisits.wins = n.wins := by
  cases n; rfl

@[simp] theorem bumpVisits_child (n : MCTSNode) : n.bumpVisits.child_nodes = n.child_nodes := by
  cases n; rfl

@[simp] theorem bumpVisits_untried (n : MCTSNode) :
    n.bumpVisits.untried_actions = n.untried_actions := by cases n; rfl

@[simp] theorem record_visits (won : Bool) (n : MCTSNode) :
    (n.record won).visits = n.visits + 1 := by cases n; rfl

@[simp] theorem record_wins (won : Bool) (n : MCTSNode) :
    (n.record won).wins = n.wins + if won then 1 else 0 := by cases n; rfl

@[simp] theorem record_child (won : Bool) (n : MCTSNode) :
    (n.record won).child_nodes = n.child_nodes := by cases n; rfl

@[simp] theorem record_untried (won : Bool) (n : MCTSNode) :
    (n.record won).untried_actions = n.untried_actions := by cases n; rfl

end MCTS.MCTSNode

namespace MCTS

/-- C3: the claim fails on the code.  Whenever the vanilla
`backpropagate` is invoked on a node strictly below the root (any
non-empty path), the root's `visits` and `wins` are both left
unchanged — the Python `while` loop stops upon reaching the node whose
`parent` is `None` without processing it, so the path is *not*
incremented "to the root inclusive" as the claim states.  (The modified
variant does satisfy the claim; see the C4 theorem's first conjunct for
its root increment.) -/
theorem C3_vanilla_backprop_skips_root (won : Bool) (a : Act) (p : List Act)
    (root : MCTSNode) :
    (Vanilla.backpropagate won (a :: p) root).visits = root.visits ∧
    (Vanilla.backpropagate won (a :: p) root).wins = root.wins := by
  constructor <;> simp [Vanilla.backpropagate]

/-- C4: the claim fails on the vanilla code.  One call of the modified
`backpropagate` adds exactly 1 to the root's `visits` (so after `N`
iterations of the modified driver the root holds `N` visits), but the
vanilla `backpropagate` never touches the root when called on any node
below it, so the vanilla root's visit count stays 0 for the entire run
instead of reaching `N`. -/
theorem C4_root_visit_increment (won : Bool) (path : List Act) (root : MCTSNode)
    (a : Act) (p : List Act) (other : MCTSNode) :
    (Modified.backpropagate won path root).visits = root.visits + 1 ∧
    (Vanilla.backpropagate won (a :: p) other).visits = other.visits := by
  constructor
  · cases path <;> simp [Modified.backpropagate]
  · simp [Vanilla.backpropagate]

/-- C6: the claim fails on the code.  `c6root` is the vanilla tree right
after its first expansion (one fresh child, all counters 0); the very
first backpropagation (here: of a win through the child) leaves the
root at 0 visits while its child reaches 1, so the invariant
`child.visits ≤ parent.visits` is already violated after the first
iteration of the vanilla driver. -/
theorem C6_child_visits_exceeds_parent :
    (Vanilla.backpropagate true [aA] c6root).visits = 0 ∧
    ((Vanilla.backpropagate true [aA] c6root).child_nodes.map fun c => c.2.visits) = [1] :=
  ⟨rfl, rfl⟩

/-- C1: the claim fails on the code.  At a root whose state has the bot
itself to move (`current_player = bot_identity = 1`), whose two
children are both visited once (so the exploration term is
`2·sqrt(log 1 / 1) = 0` for both) and have win-rates 1 (action `aA`)
and 0 (action `aB`), the modified selection descends into the
win-rate-0 child `aB`: the code passes
`is_opponent = (current_player == bot_identity)`, so it scores children
by `1 - winrate` exactly when the bot is the player about to move —
the opposite of the claimed perspective. -/
theorem C1_selection_inverts_perspective :
    (Modified.traverse_nodes oneMoveBoard 2 c1root 1 1).2.1 = [aB] ∧
    oneMoveBoard.current_player 1 = 1 ∧
    Modified.winrate nodeWon = 1 ∧ Modified.winrate nodeLost = 0 ∧
    c1root.child_nodes = [(aA, nodeWon), (aB, nodeLost)] := by
  refine ⟨?_, rfl, ?_, ?_, rfl⟩
  · have hbest : Modified.bestChild (MCTSNode.mk [] [(aA, nodeWon), (aB, nodeLost)] 1 1) true
        = some (aB, nodeLost) := by
      have u1 : Modified.ucb 1 1 1 true = ((0 : ℝ) : EReal) := by
        rw [Modified.ucb]
        norm_num [Modified.explore_faction, Real.log_one, Real.sqrt_zero]
      have u2 : Modified.ucb 0 1 1 true = ((1 : ℝ) : EReal) := by
        rw [Modified.ucb]
        norm_num [Modified.explore_faction, Real.log_one, Real.sqrt_zero]
      simp [Modified.bestChild, nodeWon, nodeLost, u1, u2]
    simp [Modified.traverse_nodes.eq_def, oneMoveBoard, c1root, hbest]
  · norm_num [Modified.winrate, nodeWon]
  · norm_num [Modified.winrate, nodeLost]

/-- C2, counterexample: the claim fails on the vanilla code.  At
`c2root` — the zero-visit root state the vanilla driver actually leaves
its root in, with first child of win-rate 1 and second child of
win-rate 0 — the final selection `get_best_action` returns the second
child `aB`, not the child with the highest win-rate: it compares `ucb`
scores (all 0 here, since `ucb` returns 0 whenever `parent.visits ==
0`), not win-rates. -/
theorem C2_counterexample :
    Vanilla.get_best_action c2root = some (aB, nodeLost) ∧
    Modified.winrate nodeLost < Modified.winrate nodeWon := by
  constructor
  · norm_num [Vanilla.get_best_action, Vanilla.ucb, c2root, nodeWon, nodeLost]
  · norm_num [Modified.winrate, nodeWon, nodeLost]

/-- C5, counterexample: the claim fails on the code.  At `c5root`, whose
two children tie at win-rate `1/2` (realised by different statistics
`1/2` and `2/4`), the modified `get_best_action` returns the **second**
child `aB`, not the first-encountered one: the `>=` comparison lets a
tied score replace the incumbent. -/
theorem C5_counterexample :
    Modified.get_best_action c5root = some (aB, nodeHalfB) ∧
    Modified.winrate nodeHalfA = Modified.winrate nodeHalfB ∧
    c5root.child_nodes = [(aA, nodeHalfA), (aB, nodeHalfB)] ∧ aA ≠ aB := by
  refine ⟨?_, ?_, rfl, by decide⟩
  · norm_num [Modified.get_best_action, Modified.winrate, c5root, nodeHalfA, nodeHalfB]
  · norm_num [Modified.winrate, nodeHalfA, nodeHalfB]

/-- C7, counterexample: the claim fails on the modified code.  Bulk
expansion of the once-visited leaf `c7node` (untried actions `aA`,
`aB`) inserts a child for both actions but leaves `untried_actions`
untouched, so immediately afterwards `aA` is simultaneously an untried
action and a key of the children mapping — the two sets are not kept
disjoint and nothing is removed from `untried_actions`. -/
theorem C7_counterexample :
    Modified.expand_leaf oneMoveBoard c7node 1 =
      some (MCTSNode.mk [aA, aB] [(aA, freshNode []), (aB, freshNode [])] 0 1, aB, 0) ∧
    aA ∈ (MCTSNode.mk [aA, aB] [(aA, freshNode []), (aB, freshNode [])] 0 1).untried_actions ∧
    aA ∈ ((MCTSNode.mk [aA, aB] [(aA, freshNode []), (aB, freshNode [])] 0 1).child_nodes.map
        Prod.fst) :=
  ⟨rfl, by decide, by decide⟩

end MCTS

namespace MCTS

section FoldBestMem

variable {α β : Type} (f : α → β) (g : Option α × β → α → Option α × β)

/-- A fold whose step either installs the scanned element or keeps the
accumulator produces the initial incumbent or some scanned element. -/
theorem foldBest_mem (hg : ∀ acc c, g acc c = (some c, f c) ∨ g acc c = acc) :
    ∀ (l : List α) (acc : Option α × β),
      (l.foldl g acc).1 = acc.1 ∨ ∃ c ∈ l, (l.foldl g acc).1 = some c := by
  intro l
  induction l with
  | nil => exact fun acc => Or.inl rfl
  | cons c l ih =>
      intro acc
      rw [List.foldl_cons]
      rcases ih (g acc c) with h | ⟨q, hq, hres⟩
      · rcases hg acc c with hstep | hstep
        · right
          exact ⟨c, List.mem_cons_self c l, by rw [h, hstep]⟩
        · left
          rw [h, hstep]
      · right
        exact ⟨q, List.mem_cons_of_mem _ hq, hres⟩

end FoldBestMem

section FoldBest

variable {α β : Type} [LinearOrder β] (f : α → β) (g : Option α × β → α → Option α × β)

/-- The running maximum of a best-scan fold only grows and dominates
every scanned score. -/
theorem foldBest_le (hg : ∀ acc c, g acc c = if acc.2 ≤ f c then (some c, f c) else acc) :
    ∀ (l : List α) (acc : Option α × β),
      acc.2 ≤ (l.foldl g acc).2 ∧ ∀ q ∈ l, f q ≤ (l.foldl g acc).2 := by
  intro l
  induction l with
  | nil => exact fun acc => ⟨le_rfl, by simp⟩
  | cons c l ih =>
      intro acc
      rw [List.foldl_cons]
      obtain ⟨h1, h2⟩ := ih (g acc c)
      by_cases hc : acc.2 ≤ f c
      · rw [hg acc c, if_pos hc] at h1 h2 ⊢
        refine ⟨le_trans hc h1, ?_⟩
        intro q hq
        rcases List.mem_cons.1 hq with rfl | hq
        · exact h1
        · exact h2 q hq
      · rw [hg acc c, if_neg hc] at h1 h2 ⊢
        refine ⟨h1, ?_⟩
        intro q hq
        rcases List.mem_cons.1 hq with rfl | hq
        · exact le_trans (le_of_not_le hc) h1
        · exact h2 q hq

/-- The running maximum of a best-scan fold is the score of the
incumbent it carries. -/
theorem foldBest_snd (hg : ∀ acc c, g acc c = if acc.2 ≤ f c then (some c, f c) else acc) :
    ∀ (l : List α) (acc : Option α × β), (∀ x, acc.1 = some x → acc.2 = f x) →
      ∀ x, (l.foldl g acc).1 = some x → (l.foldl g acc).2 = f x := by
  intro l
  induction l with
  | nil => exact fun acc h => h
  | cons c l ih =>
      intro acc hacc
      rw [List.foldl_cons]
      apply ih
      intro x hx
      by_cases hc : acc.2 ≤ f c
      · rw [hg acc c, if_pos hc] at hx ⊢
        obtain rfl : c = x := by simpa using hx
        rfl
      · rw [hg acc c, if_neg hc] at hx ⊢
        exact hacc x hx

/-- A best-scan fold with a `>=` comparison installs a final element
that ties or beats everything before it: ties replace the incumbent. -/
theorem foldBest_last (hg : ∀ acc c, g acc c = if acc.2 ≤ f c then (some c, f c) else acc) :
    ∀ (l : List α) (c : α) (acc : Option α × β), acc.2 ≤ f c → (∀ q ∈ l, f q ≤ f c) →
      ((l ++ [c]).foldl g acc).1 = some c := by
  intro l
  induction l with
  | nil =>
      intro c acc hle _
      simp only [List.nil_append, List.foldl_cons, List.foldl_nil]
      rw [hg acc c, if_pos hle]
  | cons q l ih =>
      intro c acc hle hall
      rw [List.cons_append, List.foldl_cons]
      by_cases hq : acc.2 ≤ f q
      · rw [hg acc q, if_pos hq]
        exact ih c (some q, f q) (hall q (List.mem_cons_self q l))
          (fun r hr => hall r (List.mem_cons_of_mem _ hr))
      · rw [hg acc q, if_neg hq]
        exact ih c acc hle (fun r hr => hall r (List.mem_cons_of_mem _ hr))

/-- When every score equals the initial threshold, a `>=` best-scan
fold returns the last element of the list. -/
theorem foldBest_const (hg : ∀ acc c, g acc c = if acc.2 ≤ f c then (some c, f c) else acc)
    (b : β) :
    ∀ (l : List α) (acc : Option α × β), acc.2 = b → (∀ q ∈ l, f q = b) → l ≠ [] →
      (l.foldl g acc).1 = l.getLast? ∧ (l.foldl g acc).2 = b := by
  intro l
  induction l with
  | nil => exact fun acc _ _ h => absurd rfl h
  | cons q l ih =>
      intro acc hacc hall _
      have hfq : f q = b := hall q (List.mem_cons_self q l)
      rw [List.foldl_cons, hg acc q, if_pos (by rw [hacc, hfq])]
      cases l with
      | nil => simpa using hfq
      | cons r l2 =>
          have hrec := ih (some q, f q) (by simpa using hfq)
            (fun s hs => hall s (List.mem_cons_of_mem _ hs)) (by simp)
          simpa [List.getLast?_cons_cons] using hrec

end FoldBest

/-- `wins/visits` over `ℚ` is never negative (both counters are
naturals). -/
theorem winrate_nonneg (n : MCTSNode) : 0 ≤ Modified.winrate n := by
  unfold Modified.winrate
  positivity

/-- C2, amended: after all iterations the **modified** `think` selects a
root child of maximal win-rate `wins/visits` among the root's children
(with `>=` ties and the initial threshold 0 resolved toward the
later-encountered child) and returns its `parent_action`; the
**vanilla** final choice instead maximizes the `ucb` score — which,
whenever `root.visits = 0` (the state the vanilla driver actually
leaves its root in, since its backpropagation never reaches the root),
is 0 for every child, so the vanilla choice degenerates to the last
child in iteration order regardless of win-rates. -/
theorem C2_amended_final_choice (node : MCTSNode) :
    (∀ p, Modified.get_best_action node = some p →
        p ∈ node.child_nodes ∧
          ∀ q ∈ node.child_nodes, Modified.winrate q.2 ≤ Modified.winrate p.2) ∧
    (node.visits = 0 → Vanilla.get_best_action node = node.child_nodes.getLast?) := by
  constructor
  · intro p hp
    have hg : ∀ (acc : Option (Act × MCTSNode) × ℚ) (c : Act × MCTSNode),
        (fun acc c =>
            if acc.2 ≤ Modified.winrate c.2 then (some c, Modified.winrate c.2) else acc) acc c =
          if acc.2 ≤ (fun c : Act × MCTSNode => Modified.winrate c.2) c then
            (some c, (fun c : Act × MCTSNode => Modified.winrate c.2) c)
          else acc := fun _ _ => rfl
    have hor : ∀ (acc : Option (Act × MCTSNode) × ℚ) (c : Act × MCTSNode),
        (fun acc c =>
            if acc.2 ≤ Modified.winrate c.2 then (some c, Modified.winrate c.2) else acc) acc c =
          (some c, (fun c : Act × MCTSNode => Modified.winrate c.2) c) ∨
        (fun acc c =>
            if acc.2 ≤ Modified.winrate c.2 then (some c, Modified.winrate c.2) else acc) acc c =
          acc := by
      intro acc c
      by_cases h : acc.2 ≤ Modified.winrate c.2
      · exact Or.inl (by simp [h])
      · exact Or.inr (by simp [h])
    unfold Modified.get_best_action at hp
    constructor
    · rcases foldBest_mem (fun c : Act × MCTSNode => Modified.winrate c.2) _ hor
          node.child_nodes ((none : Option (Act × MCTSNode)), (0 : ℚ)) with h | ⟨c, hc, hres⟩
      · rw [hp] at h
        simp at h
      · rw [hp] at hres
        obtain rfl : p = c := by simpa using hres
        exact hc
    · intro q hq
      have hsnd := foldBest_snd (fun c : Act × MCTSNode => Modified.winrate c.2) _ hg
        node.child_nodes ((none : Option (Act × MCTSNode)), (0 : ℚ))
        (fun x hx => by simp at hx) p hp
      have hle := (foldBest_le (fun c : Act × MCTSNode => Modified.winrate c.2) _ hg
        node.child_nodes ((none : Option (Act × MCTSNode)), (0 : ℚ))).2 q hq
      calc Modified.winrate q.2 ≤ _ := hle
        _ = Modified.winrate p.2 := hsnd
  · intro hv
    have hg : ∀ (acc : Option (Act × MCTSNode) × ℝ) (c : Act × MCTSNode),
        (fun acc c =>
            if acc.2 ≤ Vanilla.ucb c.2.wins c.2.visits node.visits then
              (some c, Vanilla.ucb c.2.wins c.2.visits node.visits)
            else acc) acc c =
          if acc.2 ≤ (fun c : Act × MCTSNode =>
              Vanilla.ucb c.2.wins c.2.visits node.visits) c then
            (some c, (fun c : Act × MCTSNode =>
              Vanilla.ucb c.2.wins c.2.visits node.visits) c)
          else acc := fun _ _ => rfl
    unfold Vanilla.get_best_action
    cases hcn : node.child_nodes with
    | nil => rfl
    | cons c0 l0 =>
        have hzero : ∀ q ∈ c0 :: l0,
            (fun c : Act × MCTSNode =>
              Vanilla.ucb c.2.wins c.2.visits node.visits) q = (0 : ℝ) := by
          intro q _
          simp [Vanilla.ucb, hv]
        exact (foldBest_const
          (fun c : Act × MCTSNode => Vanilla.ucb c.2.wins c.2.visits node.visits)
          _ hg (0 : ℝ) (c0 :: l0) ((none : Option (Act × MCTSNode)), (0 : ℝ)) rfl hzero
          (by simp)).1

/-- Witness for the C2 amended theorem at `c2root`: the modified choice
is the maximal-win-rate first child `(aA, nodeWon)`, and the vanilla
choice at the zero-visit root is the last child. -/
theorem C2_amended_final_choice_witness :
    ((aA, nodeWon) ∈ c2root.child_nodes ∧
      ∀ q ∈ c2root.child_nodes, Modified.winrate q.2 ≤ Modified.winrate nodeWon) ∧
    Vanilla.get_best_action c2root = c2root.child_nodes.getLast? := by
  refine ⟨(C2_amended_final_choice c2root).1 (aA, nodeWon) ?_,
    (C2_amended_final_choice c2root).2 rfl⟩
  norm_num [Modified.get_best_action, Modified.winrate, c2root, nodeWon, nodeLost]

section FoldArgmax

variable {α β : Type} [LinearOrder β] (f : α → β) (g : Option α × β → α → Option α × β)

/-- A best-scan fold started on an installed incumbent either keeps it
(everything scanned scores strictly below it) or lands on a scanned
element that ties or beats the incumbent and everything before it and
strictly beats everything after it. -/
theorem foldBest_split (hg : ∀ acc c, g acc c = if acc.2 ≤ f c then (some c, f c) else acc) :
    ∀ (l : List α) (p : α),
      (l.foldl g (some p, f p) = (some p, f p) ∧ ∀ x ∈ l, f x < f p) ∨
      (∃ l1 q l2, l = l1 ++ q :: l2 ∧ l.foldl g (some p, f p) = (some q, f q) ∧
        f p ≤ f q ∧ (∀ x ∈ l1, f x ≤ f q) ∧ (∀ x ∈ l2, f x < f q)) := by
  intro l
  induction l with
  | nil => exact fun p => Or.inl ⟨rfl, by simp⟩
  | cons c l ih =>
      intro p
      rw [List.foldl_cons, hg]
      by_cases hc : f p ≤ f c
      · rw [if_pos hc]
        rcases ih c with ⟨hres, hlt⟩ | ⟨l1, q, l2, hsplit, hres, hle, hpre, hsuf⟩
        · exact Or.inr ⟨[], c, l, by simp, hres, hc, by simp, hlt⟩
        · refine Or.inr ⟨c :: l1, q, l2, by simp [hsplit], hres, le_trans hc hle, ?_, hsuf⟩
          intro x hx
          rcases List.mem_cons.1 hx with rfl | hx
          · exact hle
          · exact hpre x hx
      · rw [if_neg hc]
        have hcp : f c < f p := lt_of_not_le hc
        rcases ih p with ⟨hres, hlt⟩ | ⟨l1, q, l2, hsplit, hres, hle, hpre, hsuf⟩
        · refine Or.inl ⟨hres, ?_⟩
          intro x hx
          rcases List.mem_cons.1 hx with rfl | hx
          · exact hcp
          · exact hlt x hx
        · refine Or.inr ⟨c :: l1, q, l2, by simp [hsplit], hres, hle, ?_, hsuf⟩
          intro x hx
          rcases List.mem_cons.1 hx with rfl | hx
          · exact le_trans hcp.le hle
          · exact hpre x hx

/-- The full characterization of a `>=` best-scan fold from `(None, b0)`
over a non-empty list whose scores all reach the initial threshold: the
element returned splits the list so that everything before it scores no
higher (ties replace the incumbent) and everything after it scores
strictly lower — it is the **last** element attaining the maximum. -/
theorem foldBest_lastArgmax (hg : ∀ acc c, g acc c = if acc.2 ≤ f c then (some c, f c) else acc)
    (b0 : β) :
    ∀ (l : List α), l ≠ [] → (∀ q ∈ l, b0 ≤ f q) →
      ∃ l1 p l2, l = l1 ++ p :: l2 ∧ (l.foldl g (none, b0)).1 = some p ∧
        (∀ q ∈ l1, f q ≤ f p) ∧ (∀ q ∈ l2, f q < f p) := by
  intro l hne hpos
  cases l with
  | nil => exact absurd rfl hne
  | cons c l2 =>
      rw [List.foldl_cons, hg, if_pos (hpos c (List.mem_cons_self c l2))]
      rcases foldBest_split f g hg l2 c with ⟨hres, hlt⟩ |
        ⟨l1, q, l3, hsplit, hres, hle, hpre, hsuf⟩
      · exact ⟨[], c, l2, by simp, by rw [hres], by simp, hlt⟩
      · refine ⟨c :: l1, q, l3, by simp [hsplit], by rw [hres], ?_, hsuf⟩
        intro x hx
        rcases List.mem_cons.1 hx with rfl | hx
        · exact hle
        · exact hpre x hx

end FoldArgmax

/-- The vanilla `ucb` score is never negative: both branches are sums of
non-negative terms (or the constant 0). -/
theorem ucbV_nonneg (w v pv : ℕ) : 0 ≤ Vanilla.ucb w v pv := by
  unfold Vanilla.ucb Vanilla.explore_faction
  split
  · positivity
  · exact le_rfl

/-- The modified `ucb` score is never negative on nodes satisfying
`wins ≤ visits` (the invariant of claim C8): `⊤` for the zero-visit
branch, `1 - winrate ≥ 0` plus a non-negative exploration term for the
opponent branch, and non-negative terms otherwise. -/
theorem ucbM_nonneg (w v pv : ℕ) (iso : Bool) (hwv : w ≤ v) :
    0 ≤ Modified.ucb w v pv iso := by
  unfold Modified.ucb Modified.explore_faction
  split
  · exact le_top
  · next hv =>
      have hv1 : (0 : ℝ) < v := by
        have := Nat.pos_of_ne_zero hv
        exact_mod_cast this
      split
      · rw [EReal.coe_nonneg]
        have h1 : (w : ℝ) / (v : ℝ) ≤ 1 := by
          rw [div_le_one hv1]
          exact_mod_cast hwv
        have h2 : 0 ≤ 2 * Real.sqrt (Real.log (pv : ℝ) / (v : ℝ)) := by positivity
        linarith
      · rw [EReal.coe_nonneg]
        positivity

/-- C5, amended: a tied score **does** replace the incumbent — every
maximization in the source compares with `>=`, so among children with
the maximal score the last-encountered child in iteration order is the
one chosen.  Proved for all three maximization sites: the vanilla
`get_best_action` (ucb scores), the child-selection loop of the
modified `traverse_nodes` (perspective ucb scores, on children
satisfying the `wins ≤ visits` invariant so that every score reaches
the loop's initial threshold 0), and the modified `get_best_action`
(win-rates).  In each case the chosen child splits the children list
into an earlier part it ties or beats and a later part it strictly
beats: it is the last child attaining the maximal score, for arbitrary
tie configurations. -/
theorem C5_amended_ties_replace :
    (∀ node : MCTSNode, node.child_nodes ≠ [] →
      ∃ l1 p l2, node.child_nodes = l1 ++ p :: l2 ∧
        Vanilla.get_best_action node = some p ∧
        (∀ q ∈ l1, Vanilla.ucb q.2.wins q.2.visits node.visits ≤
          Vanilla.ucb p.2.wins p.2.visits node.visits) ∧
        (∀ q ∈ l2, Vanilla.ucb q.2.wins q.2.visits node.visits <
          Vanilla.ucb p.2.wins p.2.visits node.visits)) ∧
    (∀ (node : MCTSNode) (identity : Bool), node.child_nodes ≠ [] →
      (∀ q ∈ node.child_nodes, q.2.wins ≤ q.2.visits) →
      ∃ l1 p l2, node.child_nodes = l1 ++ p :: l2 ∧
        Modified.bestChild node identity = some p ∧
        (∀ q ∈ l1, Modified.ucb q.2.wins q.2.visits node.visits identity ≤
          Modified.ucb p.2.wins p.2.visits node.visits identity) ∧
        (∀ q ∈ l2, Modified.ucb q.2.wins q.2.visits node.visits identity <
          Modified.ucb p.2.wins p.2.visits node.visits identity)) ∧
    (∀ node : MCTSNode, node.child_nodes ≠ [] →
      ∃ l1 p l2, node.child_nodes = l1 ++ p :: l2 ∧
        Modified.get_best_action node = some p ∧
        (∀ q ∈ l1, Modified.winrate q.2 ≤ Modified.winrate p.2) ∧
        (∀ q ∈ l2, Modified.winrate q.2 < Modified.winrate p.2)) := by
  refine ⟨?_, ?_, ?_⟩
  · intro node hne
    have hg : ∀ (acc : Option (Act × MCTSNode) × ℝ) (c : Act × MCTSNode),
        (fun acc c =>
            if acc.2 ≤ Vanilla.ucb c.2.wins c.2.visits node.visits then
              (some c, Vanilla.ucb c.2.wins c.2.visits node.visits)
            else acc) acc c =
          if acc.2 ≤ (fun c : Act × MCTSNode =>
              Vanilla.ucb c.2.wins c.2.visits node.visits) c then
            (some c, (fun c : Act × MCTSNode =>
              Vanilla.ucb c.2.wins c.2.visits node.visits) c)
          else acc := fun _ _ => rfl
    unfold Vanilla.get_best_action
    exact foldBest_lastArgmax
      (fun c : Act × MCTSNode => Vanilla.ucb c.2.wins c.2.visits node.visits) _ hg 0
      node.child_nodes hne (fun q _ => ucbV_nonneg _ _ _)
  · intro node identity hne hwv
    have hg : ∀ (acc : Option (Act × MCTSNode) × EReal) (c : Act × MCTSNode),
        (fun acc c =>
            if acc.2 ≤ Modified.ucb c.2.wins c.2.visits node.visits identity then
              (some c, Modified.ucb c.2.wins c.2.visits node.visits identity)
            else acc) acc c =
          if acc.2 ≤ (fun c : Act × MCTSNode =>
              Modified.ucb c.2.wins c.2.visits node.visits identity) c then
            (some c, (fun c : Act × MCTSNode =>
              Modified.ucb c.2.wins c.2.visits node.visits identity) c)
          else acc := fun _ _ => rfl
    unfold Modified.bestChild
    exact foldBest_lastArgmax
      (fun c : Act × MCTSNode => Modified.ucb c.2.wins c.2.visits node.visits identity) _ hg 0
      node.child_nodes hne (fun q hq => ucbM_nonneg _ _ _ _ (hwv q hq))
  · intro node hne
    have hg : ∀ (acc : Option (Act × MCTSNode) × ℚ) (c : Act × MCTSNode),
        (fun acc c =>
            if acc.2 ≤ Modified.winrate c.2 then (some c, Modified.winrate c.2) else acc)
            acc c =
          if acc.2 ≤ (fun c : Act × MCTSNode => Modified.winrate c.2) c then
            (some c, (fun c : Act × MCTSNode => Modified.winrate c.2) c)
          else acc := fun _ _ => rfl
    unfold Modified.get_best_action
    exact foldBest_lastArgmax
      (fun c : Act × MCTSNode => Modified.winrate c.2) _ hg 0
      node.child_nodes hne (fun q _ => winrate_nonneg q.2)

/-- Witness for the C5 amended theorem, exercising all three sites: the
vanilla `get_best_action` at the zero-visit root `c2root`, the modified
selection loop at `c1root` with the bot to move, and the modified
`get_best_action` at `c5root`, whose two children tie at win-rate
`1/2`. -/
theorem C5_amended_ties_replace_witness :
    (∃ l1 p l2, c2root.child_nodes = l1 ++ p :: l2 ∧
      Vanilla.get_best_action c2root = some p ∧
      (∀ q ∈ l1, Vanilla.ucb q.2.wins q.2.visits c2root.visits ≤
        Vanilla.ucb p.2.wins p.2.visits c2root.visits) ∧
      (∀ q ∈ l2, Vanilla.ucb q.2.wins q.2.visits c2root.visits <
        Vanilla.ucb p.2.wins p.2.visits c2root.visits)) ∧
    (∃ l1 p l2, c1root.child_nodes = l1 ++ p :: l2 ∧
      Modified.bestChild c1root true = some p ∧
      (∀ q ∈ l1, Modified.ucb q.2.wins q.2.visits c1root.visits true ≤
        Modified.ucb p.2.wins p.2.visits c1root.visits true) ∧
      (∀ q ∈ l2, Modified.ucb q.2.wins q.2.visits c1root.visits true <
        Modified.ucb p.2.wins p.2.visits c1root.visits true)) ∧
    (∃ l1 p l2, c5root.child_nodes = l1 ++ p :: l2 ∧
      Modified.get_best_action c5root = some p ∧
      (∀ q ∈ l1, Modified.winrate q.2 ≤ Modified.winrate p.2) ∧
      (∀ q ∈ l2, Modified.winrate q.2 < Modified.winrate p.2)) :=
  ⟨C5_amended_ties_replace.1 c2root (by simp [c2root]),
   C5_amended_ties_replace.2.1 c1root true (by simp [c1root]) (by decide),
   C5_amended_ties_replace.2.2 c5root (by simp [c5root])⟩

end MCTS

namespace MCTS

/-- Unfolding `allNodesB` through the children accessor. -/
theorem allNodesB_eq (p : MCTSNode → Bool) (n : MCTSNode) :
    allNodesB p n = (p n && allChildrenB p n.child_nodes) := by
  cases n
  rfl

/-- Unfolding `allChildrenB` on a cons cell. -/
theorem allChildrenB_cons (p : MCTSNode → Bool) (c : Act × MCTSNode)
    (rest : List (Act × MCTSNode)) :
    allChildrenB p (c :: rest) = (allNodesB p c.2 && allChildrenB p rest) := rfl

/-- A member of a children mapping satisfying `allChildrenB` satisfies
`allNodesB`. -/
theorem allChildrenB_mem {p : MCTSNode → Bool} :
    ∀ {cs : List (Act × MCTSNode)}, allChildrenB p cs = true →
      ∀ {c}, c ∈ cs → allNodesB p c.2 = true := by
  intro cs
  induction cs with
  | nil => intro _ c hc; cases hc
  | cons d rest ih =>
      intro h c hc
      rw [allChildrenB_cons, Bool.and_eq_true] at h
      rcases List.mem_cons.1 hc with rfl | hc
      · exact h.1
      · exact ih h.2 hc

/-- Updating one child by an invariant-preserving function preserves the
invariant of the whole mapping. -/
theorem allChildrenB_modifyChild {p : MCTSNode → Bool} {f : MCTSNode → MCTSNode}
    (hf : ∀ n, allNodesB p n = true → allNodesB p (f n) = true) (a : Act) :
    ∀ cs, allChildrenB p cs = true → allChildrenB p (modifyChild a f cs) = true := by
  intro cs
  induction cs with
  | nil => intro h; exact h
  | cons d rest ih =>
      intro h
      rw [allChildrenB_cons, Bool.and_eq_true] at h
      obtain ⟨d1, d2⟩ := d
      rw [modifyChild]
      split
      · rw [allChildrenB_cons, Bool.and_eq_true]
        exact ⟨hf _ h.1, h.2⟩
      · rw [allChildrenB_cons, Bool.and_eq_true]
        exact ⟨h.1, ih h.2⟩

/-- Inserting an invariant-satisfying child preserves the invariant of
the mapping. -/
theorem allChildrenB_dictInsert {p : MCTSNode → Bool} {c : MCTSNode}
    (hc : allNodesB p c = true) (a : Act) :
    ∀ cs, allChildrenB p cs = true → allChildrenB p (dictInsert a c cs) = true := by
  intro cs
  induction cs with
  | nil =>
      intro _
      rw [dictInsert, allChildrenB_cons, Bool.and_eq_true]
      exact ⟨hc, rfl⟩
  | cons d rest ih =>
      intro h
      rw [allChildrenB_cons, Bool.and_eq_true] at h
      obtain ⟨d1, d2⟩ := d
      rw [dictInsert]
      split
      · rw [allChildrenB_cons, Bool.and_eq_true]
        exact ⟨hc, h.2⟩
      · rw [allChildrenB_cons, Bool.and_eq_true]
        exact ⟨h.1, ih h.2⟩

/-- A fresh node satisfies `wins ≤ visits` (both are 0). -/
theorem wlv_fresh (l : List Act) : allNodesB wlv (freshNode l) = true := rfl

/-- `record` keeps `wins ≤ visits`: it adds 1 to `visits` and at most 1
to `wins`. -/
theorem wlv_record {n : MCTSNode} (won : Bool) (h : wlv n = true) :
    wlv (n.record won) = true := by
  simp [wlv] at h ⊢
  cases won <;> simp <;> omega

/-- `bumpVisits` keeps `wins ≤ visits`. -/
theorem wlv_bumpVisits {n : MCTSNode} (h : wlv n = true) : wlv n.bumpVisits = true := by
  simp [wlv] at h ⊢
  omega

/-- Replacing children does not change the counters. -/
theorem wlv_withChildren (cs : List (Act × MCTSNode)) (n : MCTSNode) :
    wlv (n.withChildren cs) = wlv n := by
  simp [wlv]

/-- Replacing untried actions does not change the counters. -/
theorem wlv_withUntried (u : List Act) (n : MCTSNode) :
    wlv (n.withUntried u) = wlv n := by
  simp [wlv]

/-- `record` preserves the tree-wide invariant. -/
theorem aw_record {n : MCTSNode} (won : Bool) (h : allNodesB wlv n = true) :
    allNodesB wlv (n.record won) = true := by
  rw [allNodesB_eq, Bool.and_eq_true] at h ⊢
  rw [MCTSNode.record_child]
  exact ⟨wlv_record won h.1, h.2⟩

/-- `bumpVisits` preserves the tree-wide invariant. -/
theorem aw_bumpVisits {n : MCTSNode} (h : allNodesB wlv n = true) :
    allNodesB wlv n.bumpVisits = true := by
  rw [allNodesB_eq, Bool.and_eq_true] at h ⊢
  rw [MCTSNode.bumpVisits_child]
  exact ⟨wlv_bumpVisits h.1, h.2⟩

/-- Assemble the tree-wide invariant from the node's own predicate and
its (replaced) children. -/
theorem aw_withChildren {n : MCTSNode} {cs : List (Act × MCTSNode)}
    (h : wlv n = true) (hcs : allChildrenB wlv cs = true) :
    allNodesB wlv (n.withChildren cs) = true := by
  rw [allNodesB_eq, Bool.and_eq_true, MCTSNode.withChildren_child, wlv_withChildren]
  exact ⟨h, hcs⟩

/-- The tree-wide invariant gives the node's own predicate. -/
theorem aw_node {n : MCTSNode} (h : allNodesB wlv n = true) : wlv n = true := by
  rw [allNodesB_eq, Bool.and_eq_true] at h
  exact h.1

/-- The tree-wide invariant restricts to the children mapping. -/
theorem aw_children {n : MCTSNode} (h : allNodesB wlv n = true) :
    allChildrenB wlv n.child_nodes = true := by
  rw [allNodesB_eq, Bool.and_eq_true] at h
  exact h.2

/-- The vanilla backpropagation loop preserves `wins ≤ visits`
everywhere. -/
theorem aw_bumpLoop (won : Bool) :
    ∀ (path : List Act) (n : MCTSNode), allNodesB wlv n = true →
      allNodesB wlv (Vanilla.backpropagate.bump won path n) = true := by
  intro path
  induction path with
  | nil => exact fun n h => aw_record won h
  | cons a p ih =>
      intro n h
      rw [Vanilla.backpropagate.bump]
      exact aw_record won
        (aw_withChildren (aw_node h) (allChildrenB_modifyChild ih a _ (aw_children h)))

/-- Vanilla backpropagation preserves `wins ≤ visits` everywhere. -/
theorem aw_backV (won : Bool) :
    ∀ (path : List Act) (t : MCTSNode), allNodesB wlv t = true →
      allNodesB wlv (Vanilla.backpropagate won path t) = true := by
  intro path t h
  cases path with
  | nil => exact aw_bumpVisits h
  | cons a p =>
      rw [Vanilla.backpropagate]
      exact aw_withChildren (aw_node h)
        (allChildrenB_modifyChild (aw_bumpLoop won p) a _ (aw_children h))

/-- Modified backpropagation preserves `wins ≤ visits` everywhere. -/
theorem aw_backM (won : Bool) :
    ∀ (path : List Act) (t : MCTSNode), allNodesB wlv t = true →
      allNodesB wlv (Modified.backpropagate won path t) = true := by
  intro path
  induction path with
  | nil => exact fun t h => aw_record won h
  | cons a p ih =>
      intro t h
      rw [Modified.backpropagate]
      exact aw_record won
        (aw_withChildren (aw_node h) (allChildrenB_modifyChild ih a _ (aw_children h)))

/-- Updating a node anywhere in the tree by an invariant-preserving
function preserves the tree-wide invariant. -/
theorem aw_updateAt {f : MCTSNode → MCTSNode}
    (hf : ∀ n, allNodesB wlv n = true → allNodesB wlv (f n) = true) :
    ∀ (path : List Act) (t : MCTSNode), allNodesB wlv t = true →
      allNodesB wlv (updateAt f path t) = true := by
  intro path
  induction path with
  | nil => exact fun t h => hf t h
  | cons a p ih =>
      intro t h
      rw [updateAt]
      exact aw_withChildren (aw_node h)
        (allChildrenB_modifyChild ih a _ (aw_children h))

/-- Vanilla single expansion preserves `wins ≤ visits` everywhere (the
fresh child starts at 0/0). -/
theorem aw_expV {State : Type} (r : ℕ) (board : Board State) (s : State) :
    ∀ n, allNodesB wlv n = true →
      allNodesB wlv ((Vanilla.expand_leaf r board n s).1) = true := by
  intro n h
  unfold Vanilla.expand_leaf
  rw [allNodesB_eq, Bool.and_eq_true]
  constructor
  · rw [wlv_withUntried, wlv_withChildren]
    exact aw_node h
  · rw [MCTSNode.withUntried_child, MCTSNode.withChildren_child]
    exact allChildrenB_dictInsert (wlv_fresh _) _ _ (aw_children h)

/-- Modified bulk expansion preserves `wins ≤ visits` everywhere. -/
theorem aw_expM {State : Type} (board : Board State) (s : State) :
    ∀ (n : MCTSNode) (ex : MCTSNode × Act × State), allNodesB wlv n = true →
      Modified.expand_leaf board n s = some ex → allNodesB wlv ex.1 = true := by
  intro n ex h hex
  unfold Modified.expand_leaf at hex
  have key : ∀ (acts : List Act) (acc : MCTSNode × Act × State),
      allNodesB wlv acc.1 = true →
      allNodesB wlv ((acts.foldl
        (fun (acc : MCTSNode × Act × State) (action : Act) =>
          let new_state := board.next_state s action
          let new_node := freshNode (board.legal_actions new_state)
          (acc.1.withChildren (dictInsert action new_node acc.1.child_nodes),
           action, new_state)) acc).1) = true := by
    intro acts
    induction acts with
    | nil => exact fun acc hacc => hacc
    | cons a acts ih =>
        intro acc hacc
        rw [List.foldl_cons]
        exact ih _ (aw_withChildren (aw_node hacc)
          (allChildrenB_dictInsert (wlv_fresh _) _ _ (aw_children hacc)))
  cases huntried : n.untried_actions with
  | nil =>
      rw [huntried] at hex
      cases hex
  | cons a0 rest =>
      rw [huntried] at hex
      obtain rfl : _ = ex := Option.some_injective _ hex
      exact key (a0 :: rest) (n, a0, s) h

/-- The child returned by the vanilla `get_best_action` belongs to the
children mapping. -/
theorem get_best_action_mem {node : MCTSNode} {p : Act × MCTSNode}
    (h : Vanilla.get_best_action node = some p) : p ∈ node.child_nodes := by
  have hor : ∀ (acc : Option (Act × MCTSNode) × ℝ) (c : Act × MCTSNode),
      (fun acc c =>
          if acc.2 ≤ Vanilla.ucb c.2.wins c.2.visits node.visits then
            (some c, Vanilla.ucb c.2.wins c.2.visits node.visits)
          else acc) acc c =
        (some c, (fun c : Act × MCTSNode => Vanilla.ucb c.2.wins c.2.visits node.visits) c) ∨
      (fun acc c =>
          if acc.2 ≤ Vanilla.ucb c.2.wins c.2.visits node.visits then
            (some c, Vanilla.ucb c.2.wins c.2.visits node.visits)
          else acc) acc c = acc := by
    intro acc c
    by_cases hle : acc.2 ≤ Vanilla.ucb c.2.wins c.2.visits node.visits
    · exact Or.inl (by simp [hle])
    · exact Or.inr (by simp [hle])
  unfold Vanilla.get_best_action at h
  rcases foldBest_mem (fun c : Act × MCTSNode => Vanilla.ucb c.2.wins c.2.visits node.visits)
      _ hor node.child_nodes ((none : Option (Act × MCTSNode)), (0 : ℝ)) with h0 | ⟨c, hc, hres⟩
  · rw [h] at h0
    simp at h0
  · rw [h] at hres
    obtain rfl : p = c := by simpa using hres
    exact hc

/-- The child returned by the modified selection loop belongs to the
children mapping. -/
theorem bestChild_mem {node : MCTSNode} {identity : Bool} {p : Act × MCTSNode}
    (h : Modified.bestChild node identity = some p) : p ∈ node.child_nodes := by
  have hor : ∀ (acc : Option (Act × MCTSNode) × EReal) (c : Act × MCTSNode),
      (fun acc c =>
          if acc.2 ≤ Modified.ucb c.2.wins c.2.visits node.visits identity then
            (some c, Modified.ucb c.2.wins c.2.visits node.visits identity)
          else acc) acc c =
        (some c, (fun c : Act × MCTSNode =>
          Modified.ucb c.2.wins c.2.visits node.visits identity) c) ∨
      (fun acc c =>
          if acc.2 ≤ Modified.ucb c.2.wins c.2.visits node.visits identity then
            (some c, Modified.ucb c.2.wins c.2.visits node.visits identity)
          else acc) acc c = acc := by
    intro acc c
    by_cases hle : acc.2 ≤ Modified.ucb c.2.wins c.2.visits node.visits identity
    · exact Or.inl (by simp [hle])
    · exact Or.inr (by simp [hle])
  unfold Modified.bestChild at h
  rcases foldBest_mem
      (fun c : Act × MCTSNode => Modified.ucb c.2.wins c.2.visits node.visits identity)
      _ hor node.child_nodes ((none : Option (Act × MCTSNode)), (0 : EReal)) with
    h0 | ⟨c, hc, hres⟩
  · rw [h] at h0
    simp at h0
  · rw [h] at hres
    obtain rfl : p = c := by simpa using hres
    exact hc

/-- The node vanilla selection stops at is a node of the tree, so it
inherits the tree-wide invariant. -/
theorem aw_travV_node {State : Type} (board : Board State) (bot : ℕ) :
    ∀ (fuel : ℕ) (t : MCTSNode) (s : State), allNodesB wlv t = true →
      allNodesB wlv ((Vanilla.traverse_nodes board bot fuel t s).2.1) = true := by
  intro fuel
  induction fuel with
  | zero => exact fun t s h => h
  | succ fuel ih =>
      intro t s h
      rw [Vanilla.traverse_nodes]
      split
      · exact h
      · split
        · next a best heq =>
            exact ih best _ (allChildrenB_mem (aw_children h) (get_best_action_mem heq))
        · exact h

/-- The tree returned by the modified selection phase (which performs
the expansions) preserves `wins ≤ visits` everywhere. -/
theorem aw_travM_tree {State : Type} (board : Board State) :
    ∀ (fuel : ℕ) (t : MCTSNode) (s : State) (bot : ℕ), allNodesB wlv t = true →
      allNodesB wlv ((Modified.traverse_nodes board fuel t s bot).1) = true := by
  intro fuel
  induction fuel with
  | zero => exact fun t s bot h => h
  | succ fuel ih =>
      intro t s bot h
      simp only [Modified.traverse_nodes]
      split
      · exact h
      · split
        · split
          · exact h
          · split
            · next ex heq => exact aw_expM board s t ex h heq
            · exact h
        · split
          · next a best heq =>
              have hbest : allNodesB wlv best = true :=
                allChildrenB_mem (aw_children h) (bestChild_mem heq)
              exact aw_withChildren (aw_node h)
                (allChildrenB_modifyChild (fun n _ => ih best _ _ hbest) a _ (aw_children h))
          · exact h

/-- One vanilla driver iteration preserves `wins ≤ visits`
everywhere. -/
theorem aw_iterV {State : Type} (board : Board State) (rng : ℕ → ℕ) (tf rf : ℕ)
    (s : State) (bot : ℕ) (t : MCTSNode) (h : allNodesB wlv t = true) :
    allNodesB wlv (Vanilla.iteration board rng tf rf s bot t) = true := by
  simp only [Vanilla.iteration]
  split
  · exact aw_backV _ _ _ h
  · exact aw_backV _ _ _
      (aw_updateAt (fun n _ => aw_expV (rng 0) board _ _ (aw_travV_node board bot tf t s h))
        _ _ h)

/-- One modified driver iteration preserves `wins ≤ visits`
everywhere. -/
theorem aw_iterM {State : Type} (board : Board State) (rng : ℕ → ℕ) (tf rf : ℕ)
    (s : State) (bot : ℕ) (t : MCTSNode) (h : allNodesB wlv t = true) :
    allNodesB wlv (Modified.iteration board rng tf rf s bot t) = true := by
  simp only [Modified.iteration]
  exact aw_backM _ _ _ (aw_travM_tree board tf t s bot h)

/-- C8: confirmed.  Every tree reachable from a fresh root by the
operations the two drivers perform — vanilla or modified
backpropagation along any path, vanilla single or modified bulk
expansion at any node, and whole driver iterations of either variant —
satisfies `wins ≤ visits` at every node; `0 ≤ wins` holds by the `Nat`
embedding of a counter that is only ever incremented, completing
`0 ≤ wins ≤ visits` at all times. -/
theorem C8_wins_le_visits {State : Type} (board : Board State) (t : MCTSNode)
    (h : Reachable board t) : allNodesB wlv t = true := by
  induction h with
  | root s => exact wlv_fresh _
  | backV won path _ ih => exact aw_backV won path _ ih
  | backM won path _ ih => exact aw_backM won path _ ih
  | expV r path s _ ih => exact aw_updateAt (fun n hn => aw_expV r board s n hn) path _ ih
  | expM path s _ ih =>
      refine aw_updateAt ?_ path _ ih
      intro n hn
      cases hex : Modified.expand_leaf board n s with
      | none => simpa [hex] using hn
      | some ex => simpa [hex] using aw_expM board s n ex hn hex
  | iterV rng tf rf s bot _ ih => exact aw_iterV board rng tf rf s bot _ ih
  | iterM rng tf rf s bot _ ih => exact aw_iterM board rng tf rf s bot _ ih

/-- Witness for C8: a fresh root for the countdown game, backpropagated
through once by the modified variant, satisfies the invariant. -/
theorem C8_wins_le_visits_witness :
    allNodesB wlv (Modified.backpropagate true []
      (freshNode (downBoard.legal_actions 1))) = true :=
  C8_wins_le_visits downBoard _ (Reachable.backM true [] (Reachable.root 1))

end MCTS

namespace MCTS

/-- `random.choice` returns an element of a non-empty list. -/
theorem choice_mem (r : ℕ) {l : List Act} (h : l ≠ []) : choice r l ∈ l := by
  unfold choice
  have hlt : r % l.length < l.length := Nat.mod_lt _ (List.length_pos.2 h)
  rw [List.getD_eq_getElem l _ hlt]
  exact List.getElem_mem hlt

/-- The keys after a dict insertion are the inserted key and the old
keys. -/
theorem keys_dictInsert (a : Act) (c : MCTSNode) :
    ∀ (cs : List (Act × MCTSNode)) (x : Act),
      x ∈ (dictInsert a c cs).map Prod.fst ↔ x = a ∨ x ∈ cs.map Prod.fst := by
  intro cs
  induction cs with
  | nil => intro x; simp [dictInsert]
  | cons d rest ih =>
      intro x
      obtain ⟨d1, d2⟩ := d
      rw [dictInsert]
      split
      · next heq =>
          subst heq
          simp
      · simp [ih x]
        tauto

/-- C7, amended: in the **vanilla** variant the claim holds — expansion
picks an untried action, removes it from `untried_actions` (so the
chosen action is no longer untried), inserts the child under that
action, and keeps `untried_actions` disjoint from the children keys; in
the **modified** variant expansion creates a child for every untried
action but removes nothing from `untried_actions`, so immediately after
a bulk expansion every untried action is also a key of the children
mapping (re-expansion is prevented only by the selection phase's
no-children guard, not by this invariant). -/
theorem C7_amended_vanilla_expansion {State : Type} (r : ℕ) (board : Board State)
    (node : MCTSNode) (state : State)
    (hnodup : node.untried_actions.Nodup) (hne : node.untried_actions ≠ [])
    (hdisj : ∀ x ∈ node.untried_actions, x ∉ node.child_nodes.map Prod.fst) :
    (Vanilla.expand_leaf r board node state).2.1 ∈ node.untried_actions ∧
    (Vanilla.expand_leaf r board node state).1.untried_actions =
      node.untried_actions.erase (Vanilla.expand_leaf r board node state).2.1 ∧
    (Vanilla.expand_leaf r board node state).2.1 ∉
      (Vanilla.expand_leaf r board node state).1.untried_actions ∧
    (Vanilla.expand_leaf r board node state).2.1 ∈
      ((Vanilla.expand_leaf r board node state).1.child_nodes.map Prod.fst) ∧
    ∀ x ∈ (Vanilla.expand_leaf r board node state).1.untried_actions,
      x ∉ ((Vanilla.expand_leaf r board node state).1.child_nodes.map Prod.fst) := by
  have hact : (Vanilla.expand_leaf r board node state).2.1 = choice r node.untried_actions :=
    rfl
  have huntried : (Vanilla.expand_leaf r board node state).1.untried_actions =
      node.untried_actions.erase (choice r node.untried_actions) := by
    simp [Vanilla.expand_leaf]
  have hchild : (Vanilla.expand_leaf r board node state).1.child_nodes =
      dictInsert (choice r node.untried_actions)
        (freshNode (board.legal_actions
          (board.next_state state (choice r node.untried_actions))))
        node.child_nodes := by
    simp [Vanilla.expand_leaf]
  have hmem : choice r node.untried_actions ∈ node.untried_actions := choice_mem r hne
  refine ⟨hact ▸ hmem, hact ▸ huntried, ?_, ?_, ?_⟩
  · rw [hact, huntried]
    exact hnodup.not_mem_erase
  · rw [hact, hchild]
    exact (keys_dictInsert _ _ _ _).2 (Or.inl rfl)
  · intro x hx
    rw [huntried] at hx
    have hx1 : x ≠ choice r node.untried_actions ∧ x ∈ node.untried_actions :=
      (hnodup.mem_erase_iff).1 hx
    rw [hchild]
    intro hk
    rcases (keys_dictInsert _ _ _ _).1 hk with h1 | h1
    · exact hx1.1 h1
    · exact hdisj x hx1.2 h1

/-- Witness for the C7 amended theorem: expanding a fresh node with
untried actions `[aA, aB]` (no children yet). -/
theorem C7_amended_vanilla_expansion_witness :
    (Vanilla.expand_leaf 0 oneMoveBoard (freshNode [aA, aB]) 1).2.1 ∈
      (freshNode [aA, aB]).untried_actions ∧
    (Vanilla.expand_leaf 0 oneMoveBoard (freshNode [aA, aB]) 1).1.untried_actions =
      (freshNode [aA, aB]).untried_actions.erase
        (Vanilla.expand_leaf 0 oneMoveBoard (freshNode [aA, aB]) 1).2.1 ∧
    (Vanilla.expand_leaf 0 oneMoveBoard (freshNode [aA, aB]) 1).2.1 ∉
      (Vanilla.expand_leaf 0 oneMoveBoard (freshNode [aA, aB]) 1).1.untried_actions ∧
    (Vanilla.expand_leaf 0 oneMoveBoard (freshNode [aA, aB]) 1).2.1 ∈
      ((Vanilla.expand_leaf 0 oneMoveBoard (freshNode [aA, aB]) 1).1.child_nodes.map
        Prod.fst) ∧
    ∀ x ∈ (Vanilla.expand_leaf 0 oneMoveBoard (freshNode [aA, aB]) 1).1.untried_actions,
      x ∉ ((Vanilla.expand_leaf 0 oneMoveBoard (freshNode [aA, aB]) 1).1.child_nodes.map
        Prod.fst) :=
  C7_amended_vanilla_expansion 0 oneMoveBoard (freshNode [aA, aB]) 1
    (by decide) (by decide) (by simp [freshNode])

end MCTS

namespace MCTS

/-- C9: confirmed.  On a game whose plays are bounded — a measure `μ`
decreases along every legal move from a non-terminal state, and
non-terminal states have legal moves — both rollouts, given at least
`μ s` fuel for the `while` loop, terminate in a state satisfying
`is_ended`; and whenever no legal action of a non-terminal state has
its third and fourth components equal to 1, the heuristic rollout's
step is exactly the uniform-random fallback `choice`. -/
theorem C9_rollout_terminates {State : Type} (board : Board State) (μ : State → ℕ)
    (hdec : ∀ s a, board.is_ended s = false → a ∈ board.legal_actions s →
        μ (board.next_state s a) < μ s)
    (hne : ∀ s, board.is_ended s = false → board.legal_actions s ≠ []) :
    (∀ (rng : ℕ → ℕ) (fuel : ℕ) (s : State), μ s ≤ fuel →
        board.is_ended (Vanilla.rollout board rng fuel s) = true) ∧
    (∀ (rng : ℕ → ℕ) (fuel : ℕ) (s : State), μ s ≤ fuel →
        board.is_ended (Modified.rollout board rng fuel s) = true) ∧
    (∀ (rng : ℕ → ℕ) (fuel : ℕ) (s : State), board.is_ended s = false →
        ((board.legal_actions s).filter fun a => a.2.2.1 == 1 && a.2.2.2 == 1) = [] →
        Modified.rollout board rng (fuel + 1) s =
          Modified.rollout board (shiftRng rng) fuel
            (board.next_state s (choice (rng 0) (board.legal_actions s)))) := by
  have hzero : ∀ s : State, μ s = 0 → board.is_ended s = true := by
    intro s h0
    cases hend : board.is_ended s with
    | true => rfl
    | false =>
        obtain ⟨a, ha⟩ := List.exists_mem_of_ne_nil _ (hne s hend)
        have := hdec s a hend ha
        omega
  refine ⟨?_, ?_, ?_⟩
  · intro rng fuel
    induction fuel generalizing rng with
    | zero =>
        intro s hs
        exact hzero s (Nat.le_zero.1 hs)
    | succ fuel ih =>
        intro s hs
        rw [Vanilla.rollout]
        cases hend : board.is_ended s with
        | true => simp [hend]
        | false =>
            rw [if_neg (by simp [hend])]
            have hcm : choice (rng 0) (board.legal_actions s) ∈ board.legal_actions s :=
              choice_mem _ (hne s hend)
            have := hdec s _ hend hcm
            exact ih (shiftRng rng) _ (by omega)
  · intro rng fuel
    induction fuel generalizing rng with
    | zero =>
        intro s hs
        exact hzero s (Nat.le_zero.1 hs)
    | succ fuel ih =>
        intro s hs
        rw [Modified.rollout]
        cases hend : board.is_ended s with
        | true => simp [hend]
        | false =>
            rw [if_neg (by simp [hend])]
            cases hlast : ((board.legal_actions s).filter
                fun a => a.2.2.1 == 1 && a.2.2.2 == 1).getLast? with
            | some a =>
                have hmem : a ∈ board.legal_actions s := by
                  have hx := List.mem_getLast?_eq_getLast (Option.mem_def.2 hlast)
                  obtain ⟨hnn, rfl⟩ := hx
                  exact List.mem_of_mem_filter (List.getLast_mem hnn)
                have := hdec s a hend hmem
                exact ih rng _ (by omega)
            | none =>
                have hcm : choice (rng 0) (board.legal_actions s) ∈ board.legal_actions s :=
                  choice_mem _ (hne s hend)
                have := hdec s _ hend hcm
                exact ih (shiftRng rng) _ (by omega)
  · intro rng fuel s hend hfilter
    rw [Modified.rollout, if_neg (by simp [hend]), hfilter]
    rfl

/-- Witness for C9 on the countdown game (measure: the state itself):
both rollouts from state 2 with fuel 2 end the game, and from state 1 —
whose only legal action is unbiased — the heuristic rollout takes the
uniform-random fallback step. -/
theorem C9_rollout_terminates_witness :
    downBoard.is_ended (Vanilla.rollout downBoard (fun _ => 0) 2 2) = true ∧
    downBoard.is_ended (Modified.rollout downBoard (fun _ => 0) 2 2) = true ∧
    Modified.rollout downBoard (fun _ => 0) 2 1 =
      Modified.rollout downBoard (shiftRng fun _ => 0) 1
        (downBoard.next_state 1 (choice ((fun _ : ℕ => 0) 0) (downBoard.legal_actions 1))) := by
  have hdec : ∀ (s : ℕ) (a : Act), downBoard.is_ended s = false →
      a ∈ downBoard.legal_actions s → (fun s : ℕ => s) (downBoard.next_state s a) <
        (fun s : ℕ => s) s := by
    intro s a h1 _
    have : s ≠ 0 := by simpa [downBoard] using h1
    simp [downBoard]
    omega
  have hne : ∀ s : ℕ, downBoard.is_ended s = false → downBoard.legal_actions s ≠ [] := by
    intro s h1
    have : s ≠ 0 := by simpa [downBoard] using h1
    simp [downBoard, this]
  obtain ⟨h1, h2, h3⟩ := C9_rollout_terminates downBoard (fun s => s) hdec hne
  exact ⟨h1 (fun _ => 0) 2 2 (by omega), h2 (fun _ => 0) 2 2 (by omega),
    h3 (fun _ => 0) 1 1 (by decide) (by decide)⟩

end MCTS

namespace MCTS

/-- A childless node makes the vanilla `get_best_action` return `None`
(the fold never runs). -/
theorem gbaV_nil {node : MCTSNode} (hc : node.child_nodes = []) :
    Vanilla.get_best_action node = none := by
  unfold Vanilla.get_best_action
  rw [hc]
  rfl

/-- A childless node makes the modified `get_best_action` return
`None`. -/
theorem gbaM_nil {node : MCTSNode} (hc : node.child_nodes = []) :
    Modified.get_best_action node = none := by
  unfold Modified.get_best_action
  rw [hc]
  rfl

/-- Vanilla selection at a childless node returns it immediately. -/
theorem travV_childless {State : Type} (board : Board State) (bot : ℕ)
    (fuel : ℕ) (t : MCTSNode) (s : State) (hc : t.child_nodes = []) :
    Vanilla.traverse_nodes board bot fuel t s = ([], t, s) := by
  cases fuel with
  | zero => rfl
  | succ fuel =>
      rw [Vanilla.traverse_nodes, if_pos (by simp [hc])]

/-- Modified selection at a terminal state returns the node
immediately. -/
theorem travM_terminal {State : Type} (board : Board State)
    (fuel : ℕ) (t : MCTSNode) (s : State) (bot : ℕ) (hend : board.is_ended s = true) :
    Modified.traverse_nodes board fuel t s bot = (t, [], s) := by
  cases fuel with
  | zero => rfl
  | succ fuel =>
      rw [Modified.traverse_nodes, if_pos hend]

/-- One vanilla iteration on a childless root with no untried actions
never creates children or untried actions. -/
theorem iterV_terminal {State : Type} (board : Board State) (rng : ℕ → ℕ) (tf rf : ℕ)
    (s : State) (bot : ℕ) (t : MCTSNode) (hc : t.child_nodes = [])
    (hu : t.untried_actions = []) :
    (Vanilla.iteration board rng tf rf s bot t).child_nodes = [] ∧
    (Vanilla.iteration board rng tf rf s bot t).untried_actions = [] := by
  simp only [Vanilla.iteration, travV_childless board bot tf t s hc]
  rw [if_pos (by simp [hu])]
  simp [Vanilla.backpropagate, hc, hu]

/-- One modified iteration from a terminal state never creates children
or untried actions. -/
theorem iterM_terminal {State : Type} (board : Board State) (rng : ℕ → ℕ) (tf rf : ℕ)
    (s : State) (bot : ℕ) (t : MCTSNode) (hend : board.is_ended s = true)
    (hc : t.child_nodes = []) (hu : t.untried_actions = []) :
    (Modified.iteration board rng tf rf s bot t).child_nodes = [] ∧
    (Modified.iteration board rng tf rf s bot t).untried_actions = [] := by
  simp only [Modified.iteration, travM_terminal board tf t s bot hend]
  simp [Modified.backpropagate, hc, hu]

/-- The whole vanilla driver loop keeps a childless, fully-untried-free
root childless. -/
theorem searchTreeV_terminal {State : Type} (board : Board State) (rngs : ℕ → ℕ → ℕ)
    (tf rf : ℕ) (s : State) (bot : ℕ) :
    ∀ (iters : ℕ) (t : MCTSNode), t.child_nodes = [] → t.untried_actions = [] →
      (Vanilla.searchTree board rngs tf rf s bot iters t).child_nodes = [] ∧
      (Vanilla.searchTree board rngs tf rf s bot iters t).untried_actions = [] := by
  intro iters
  induction iters with
  | zero => exact fun t hc hu => ⟨hc, hu⟩
  | succ n ih =>
      intro t hc hu
      rw [Vanilla.searchTree]
      obtain ⟨hc1, hu1⟩ := iterV_terminal board (rngs n) tf rf s bot t hc hu
      exact ih _ hc1 hu1

/-- The whole modified driver loop from a terminal state keeps the root
childless. -/
theorem searchTreeM_terminal {State : Type} (board : Board State) (rngs : ℕ → ℕ → ℕ)
    (tf rf : ℕ) (s : State) (bot : ℕ) (hend : board.is_ended s = true) :
    ∀ (iters : ℕ) (t : MCTSNode), t.child_nodes = [] → t.untried_actions = [] →
      (Modified.searchTree board rngs tf rf s bot iters t).child_nodes = [] ∧
      (Modified.searchTree board rngs tf rf s bot iters t).untried_actions = [] := by
  intro iters
  induction iters with
  | zero => exact fun t hc hu => ⟨hc, hu⟩
  | succ n ih =>
      intro t hc hu
      rw [Modified.searchTree]
      obtain ⟨hc1, hu1⟩ := iterM_terminal board (rngs n) tf rf s bot t hend hc hu
      exact ih _ hc1 hu1

/-- C10: confirmed.  Calling either `think` on a terminal state (empty
`legal_actions`): the root never acquires children through any number
of iterations, `get_best_action` therefore returns `None`, and `think`
produces no action — the embedding's `none`, modelling the
`AttributeError` Python raises on `None.parent_action`. -/
theorem C10_terminal_state_attribute_error {State : Type} (board : Board State) (s : State)
    (hend : board.is_ended s = true) (hleg : board.legal_actions s = [])
    (rngs : ℕ → ℕ → ℕ) (tf rf iters : ℕ) :
    (Vanilla.searchTree board rngs tf rf s (board.current_player s) iters
        (freshNode (board.legal_actions s))).child_nodes = [] ∧
    Vanilla.think board rngs tf rf iters s = none ∧
    (Modified.searchTree board rngs tf rf s (board.current_player s) iters
        (freshNode (board.legal_actions s))).child_nodes = [] ∧
    Modified.think board rngs tf rf iters s = none := by
  have hfc : (freshNode (board.legal_actions s)).child_nodes = [] := rfl
  have hfu : (freshNode (board.legal_actions s)).untried_actions = [] := by
    simp [freshNode, hleg]
  obtain ⟨hv1, _⟩ := searchTreeV_terminal board rngs tf rf s (board.current_player s)
    iters _ hfc hfu
  obtain ⟨hm1, _⟩ := searchTreeM_terminal board rngs tf rf s (board.current_player s)
    hend iters _ hfc hfu
  refine ⟨hv1, ?_, hm1, ?_⟩
  · simp only [Vanilla.think]
    rw [gbaV_nil hv1]
    rfl
  · simp only [Modified.think]
    rw [gbaM_nil hm1]
    rfl

/-- Witness for C10: the countdown game's terminal state 0, two
iterations of either driver. -/
theorem C10_terminal_state_attribute_error_witness :
    (Vanilla.searchTree downBoard (fun _ _ => 0) 3 3 0 (downBoard.current_player 0) 2
        (freshNode (downBoard.legal_actions 0))).child_nodes = [] ∧
    Vanilla.think downBoard (fun _ _ => 0) 3 3 2 0 = none ∧
    (Modified.searchTree downBoard (fun _ _ => 0) 3 3 0 (downBoard.current_player 0) 2
        (freshNode (downBoard.legal_actions 0))).child_nodes = [] ∧
    Modified.think downBoard (fun _ _ => 0) 3 3 2 0 = none :=
  C10_terminal_state_attribute_error downBoard 0 rfl rfl (fun _ _ => 0) 3 3 2

end MCTS
